import Mathlib

/-!
Verification of the pgtools core (src/pgtools.go): the field-ordering
comparator of `fields`, the spec-modelled column resolver
(`internal/structref.GetColumnToFieldIndexMap` is not in the analysed
sources), the LRU cache used by `Fields`, and the `Wildcard` formatter.

Shallow embedding conventions:
  * `reflect.Type` values are modelled by the inductive `GoType`;
  * Go slices are Lean lists; Go map assignment/deletion is modelled on
    association lists with first-match lookup semantics;
  * `sort.SliceStable` with a `less` predicate is modelled by
    `List.insertionSort` on the reflexive complement of `less`
    (insertion sort is a stable sort, and for the strict total order
    used here the stable-sorted permutation is unique);
  * the only panic point reachable in the core (`l.Remove(nil)` when the
    eviction branch runs on an empty list, possible only when the
    capacity is zero) is modelled by `Option`: `none` is a panic.
-/

/-- The `less` closure passed to `sort.SliceStable` in `fields`
(src/pgtools.go lines 143-160): walk both index paths in lockstep;
an exhausted left path is never less, an exhausted right path (with the
left path nonempty) is always greater-than-the-left, otherwise compare
heads and descend on ties. -/
def fieldsLess : List Nat → List Nat → Bool
  | [], _ => false
  | _ :: _, [] => true
  | a :: as, b :: bs =>
      if a < b then true
      else if b < a then false
      else fieldsLess as bs

theorem fieldsLess_irrefl : ∀ a, fieldsLess a a = false
  | [] => rfl
  | _ :: as => by simp [fieldsLess, fieldsLess_irrefl as]

theorem fieldsLess_asymm : ∀ a b, fieldsLess a b = true → fieldsLess b a = false
  | [], _, h => by simp [fieldsLess] at h
  | _ :: _, [], _ => by simp [fieldsLess]
  | x :: as, y :: bs, h => by
    by_cases hxy : x < y
    · simp [fieldsLess, Nat.lt_asymm hxy, hxy]
    · by_cases hyx : y < x
      · simp [fieldsLess, hxy, hyx] at h
      · simp only [fieldsLess, if_neg hxy, if_neg hyx] at h ⊢
        exact fieldsLess_asymm as bs h

theorem fieldsLess_trans :
    ∀ a b c, fieldsLess a b = true → fieldsLess b c = true → fieldsLess a c = true
  | [], _, _, h1, _ => by simp [fieldsLess] at h1
  | _ :: _, [], _, _, h2 => by simp [fieldsLess] at h2
  | _ :: _, _ :: _, [], _, _ => by simp [fieldsLess]
  | x :: as, y :: bs, z :: cs, h1, h2 => by
    simp only [fieldsLess] at h1 h2 ⊢
    by_cases hxy : x < y
    · by_cases hyz : y < z
      · simp [Nat.lt_trans hxy hyz]
      · by_cases hzy : z < y
        · simp [hyz, hzy] at h2
        · have hxz : x < z := by omega
          simp [hxz]
    · by_cases hyx : y < x
      · simp [hxy, hyx] at h1
      · by_cases hyz : y < z
        · have hxz : x < z := by omega
          simp [hxz]
        · by_cases hzy : z < y
          · simp [hyz, hzy] at h2
          · have hxz : ¬ x < z := by omega
            have hzx : ¬ z < x := by omega
            simp only [if_neg hxy, if_neg hyx] at h1
            simp only [if_neg hyz, if_neg hzy] at h2
            simp only [if_neg hxz, if_neg hzx]
            exact fieldsLess_trans as bs cs h1 h2

theorem fieldsLess_total :
    ∀ a b, a ≠ b → fieldsLess a b = true ∨ fieldsLess b a = true
  | [], [], h => absurd rfl h
  | [], _ :: _, _ => Or.inr (by simp [fieldsLess])
  | _ :: _, [], _ => Or.inl (by simp [fieldsLess])
  | x :: as, y :: bs, h => by
    by_cases hxy : x < y
    · exact Or.inl (by simp [fieldsLess, hxy])
    · by_cases hyx : y < x
      · exact Or.inr (by simp [fieldsLess, hyx])
      · have hx : x = y := by omega
        subst hx
        have hab : as ≠ bs := by
          intro he; exact h (by rw [he])
        rcases fieldsLess_total as bs hab with hl | hr
        · exact Or.inl (by simpa [fieldsLess] using hl)
        · exact Or.inr (by simpa [fieldsLess] using hr)

theorem fieldsLess_false_trans :
    ∀ a b c, fieldsLess b a = false → fieldsLess c b = false → fieldsLess c a = false := by
  intro a b c h1 h2
  by_contra h
  have hca : fieldsLess c a = true := by
    revert h; cases fieldsLess c a <;> simp
  by_cases hbc : b = c
  · rw [hbc] at h1
    rw [h1] at hca
    exact Bool.noConfusion hca
  · rcases fieldsLess_total b c hbc with hb | hc
    · have : fieldsLess b a = true := fieldsLess_trans b c a hb hca
      rw [h1] at this
      exact Bool.noConfusion this
    · rw [h2] at hc
      exact Bool.noConfusion hc

/-- The local `column` struct of `fields` (src/pgtools.go lines 130-133):
an index path into the struct together with the derived column name. -/
structure Column where
  indices : List Nat
  name : String
deriving DecidableEq, Repr

/-- The reflexive complement of the Go `less` closure, i.e. `¬ less d c`:
the order with respect to which the output of `sort.SliceStable` is
sorted. -/
def colLe (c d : Column) : Prop := fieldsLess d.indices c.indices = false

/-- The strict order `less c d` on columns. -/
def colLt (c d : Column) : Prop := fieldsLess c.indices d.indices = true

instance : DecidableRel colLe := fun _ _ => instDecidableEqBool _ _

instance : DecidableRel colLt := fun _ _ => instDecidableEqBool _ _

instance : IsTotal Column colLe where
  total c d := by
    cases hdc : fieldsLess d.indices c.indices with
    | false => exact Or.inl hdc
    | true => exact Or.inr (fieldsLess_asymm _ _ hdc)

instance : IsTrans Column colLe where
  trans a b c h1 h2 := fieldsLess_false_trans a.indices b.indices c.indices h1 h2

instance : IsAntisymm Column colLt where
  antisymm a b h1 h2 := by
    have h3 := fieldsLess_asymm _ _ h1
    simp only [colLt] at h2
    rw [h3] at h2
    exact Bool.noConfusion h2

/-- The `sort.SliceStable(cs, less)` call of `fields` (src/pgtools.go
line 143): a stable sort of the column list by `fieldsLess` on index
paths, modelled by insertion sort on the complement order `colLe`. -/
def sortCols (cs : List Column) : List Column := cs.insertionSort colLe

theorem sortCols_perm (cs : List Column) : List.Perm (sortCols cs) cs :=
  List.perm_insertionSort colLe cs

theorem sortCols_sorted (cs : List Column) : List.Sorted colLe (sortCols cs) :=
  List.sorted_insertionSort colLe cs

/-- Ascending `colLt` chains are `colLe`-sorted, so insertion sort fixes
them. -/
theorem sortCols_of_sorted {cs : List Column}
    (h : List.Pairwise colLt cs) : sortCols cs = cs :=
  List.Sorted.insertionSort_eq
    (h.imp (fun hlt => fieldsLess_asymm _ _ hlt))

/-- With pairwise-distinct index paths the stable-sorted permutation is
unique: sorting any permutation of the column list gives the same
result.  This is what makes `fields` independent of Go map iteration
order. -/
theorem sortCols_eq_of_perm {cs cs' : List Column}
    (hp : List.Perm cs cs') (hnd : (cs.map Column.indices).Nodup) :
    sortCols cs = sortCols cs' := by
  have hpw : cs.Pairwise (fun a b => a.indices ≠ b.indices) := by
    simpa [List.Nodup, List.pairwise_map] using hnd
  have hpw' : cs'.Pairwise (fun a b => a.indices ≠ b.indices) := hp.pairwise_iff
    (fun h hn => (h hn.symm).elim) |>.mp hpw
  have hs : List.Sorted colLt (sortCols cs) := by
    have h1 := sortCols_sorted cs
    have h2 : (sortCols cs).Pairwise (fun a b => a.indices ≠ b.indices) :=
      ((sortCols_perm cs).symm.pairwise_iff (fun h hn => (h hn.symm).elim)).mp hpw
    refine (h1.and h2).imp ?_
    rintro a b ⟨hle, hne⟩
    rcases fieldsLess_total a.indices b.indices hne with hl | hr
    · exact hl
    · rw [hle] at hr
      exact Bool.noConfusion hr
  have hs' : List.Sorted colLt (sortCols cs') := by
    have h1 := sortCols_sorted cs'
    have h2 : (sortCols cs').Pairwise (fun a b => a.indices ≠ b.indices) :=
      ((sortCols_perm cs').symm.pairwise_iff (fun h hn => (h hn.symm).elim)).mp hpw'
    refine (h1.and h2).imp ?_
    rintro a b ⟨hle, hne⟩
    rcases fieldsLess_total a.indices b.indices hne with hl | hr
    · exact hl
    · rw [hle] at hr
      exact Bool.noConfusion hr
  exact List.eq_of_perm_of_sorted
    ((sortCols_perm cs).trans (hp.trans (sortCols_perm cs').symm)) hs hs'

/-- The tail of `fields` (src/pgtools.go lines 162-166): project the
sorted columns to their names. -/
def fieldsGo (cs : List Column) : List String := (sortCols cs).map Column.name

mutual
/-- A Go struct type as seen by reflection, restricted to what the
column resolver inspects.  `scalar` is any non-struct (opaque leaf)
type; `strukt` carries the declared field list in declaration order. -/
inductive GoType where
  | scalar : GoType
  | strukt : GoFieldList → GoType

inductive GoFieldList where
  | fnil : GoFieldList
  | fcons : String → Bool → Bool → GoType → GoFieldList → GoFieldList
end

mutual
/-- Size measure for mutual recursion over the type shape. -/
def GoType.sz : GoType → Nat
  | .scalar => 1
  | .strukt fs => fs.sz + 1

def GoFieldList.sz : GoFieldList → Nat
  | .fnil => 1
  | .fcons _ _ _ t fs => t.sz + fs.sz + 1
end

mutual
def GoType.beq : GoType → GoType → Bool
  | .scalar, .scalar => true
  | .strukt fs, .strukt gs => fs.beq gs
  | _, _ => false

def GoFieldList.beq : GoFieldList → GoFieldList → Bool
  | .fnil, .fnil => true
  | .fcons n1 i1 j1 t1 fs1, .fcons n2 i2 j2 t2 fs2 =>
      n1 == n2 && i1 == i2 && j1 == j2 && t1.beq t2 && fs1.beq fs2
  | _, _ => false
end

mutual
theorem goTypeBeq_iff : ∀ a b : GoType, a.beq b = true ↔ a = b
  | .scalar, .scalar => by simp [GoType.beq]
  | .scalar, .strukt _ => by simp [GoType.beq]
  | .strukt _, .scalar => by simp [GoType.beq]
  | .strukt fs, .strukt gs => by
      simp [GoType.beq, goFieldListBeq_iff fs gs]

theorem goFieldListBeq_iff : ∀ a b : GoFieldList, a.beq b = true ↔ a = b
  | .fnil, .fnil => by simp [GoFieldList.beq]
  | .fnil, .fcons _ _ _ _ _ => by simp [GoFieldList.beq]
  | .fcons _ _ _ _ _, .fnil => by simp [GoFieldList.beq]
  | .fcons n1 i1 j1 t1 fs1, .fcons n2 i2 j2 t2 fs2 => by
      simp [GoFieldList.beq, goTypeBeq_iff t1 t2, goFieldListBeq_iff fs1 fs2,
        and_assoc]
end

instance : DecidableEq GoType := fun a b =>
  decidable_of_iff (a.beq b = true) (goTypeBeq_iff a b)

instance : DecidableEq GoFieldList := fun a b =>
  decidable_of_iff (a.beq b = true) (goFieldListBeq_iff a b)

mutual
/-- Modelled from the spec: `internal/structref.GetColumnToFieldIndexMap`
is not among the analysed sources; §4.1 of the spec describes the
traversal.  `resolveField1 name ignored jsonTag t i` is the contribution
of one declared field (post-override name `name`, its "ignore" marker,
its opaque/JSON marker, its type `t`, declaration index `i`): an ignored
field contributes nothing; a scalar or JSON-opaque field contributes one
terminal column with path `[i]`; a nested composite is flattened, each
child name prefixed with `name ++ "."` and each child path with `i`. -/
def resolveField1 : String → Bool → Bool → GoType → Nat → List Column
  | _, true, _, _, _ => []
  | name, false, _, .scalar, i => [⟨[i], name⟩]
  | name, false, true, .strukt _, i => [⟨[i], name⟩]
  | name, false, false, .strukt inner, i =>
      (resolveFields inner 0).map
        (fun c => ⟨i :: c.indices, name ++ "." ++ c.name⟩)

/-- Modelled from the spec: the columns of the fields of a struct,
starting at declaration index `i`, in declaration order. -/
def resolveFields : GoFieldList → Nat → List Column
  | .fnil, _ => []
  | .fcons name ig js t fs, i =>
      resolveField1 name ig js t i ++ resolveFields fs (i + 1)
end

/-- Modelled from the spec: the column set of a type; a non-struct type
resolves to no columns (§4.1 Errors). -/
def resolveColumns : GoType → List Column
  | .scalar => []
  | .strukt fs => resolveFields fs 0

theorem fieldsLess_cons (x : Nat) (a b : List Nat) :
    fieldsLess (x :: a) (x :: b) = fieldsLess a b := by
  simp [fieldsLess]

theorem resolveField1_head :
    ∀ name ig js t i c, c ∈ resolveField1 name ig js t i → ∃ p, c.indices = i :: p := by
  intro name ig js t i c hc
  match ig, t, js with
  | true, _, _ => simp [resolveField1] at hc
  | false, .scalar, js =>
      rw [resolveField1] at hc
      simp at hc
      exact ⟨[], by simp [hc]⟩
  | false, .strukt inner, true =>
      rw [resolveField1] at hc
      simp at hc
      exact ⟨[], by simp [hc]⟩
  | false, .strukt inner, false =>
      rw [resolveField1] at hc
      simp only [List.mem_map] at hc
      obtain ⟨d, _, hd⟩ := hc
      exact ⟨d.indices, by simp [← hd]⟩

theorem resolveFields_head :
    ∀ fs i c, c ∈ resolveFields fs i → ∃ j q, c.indices = j :: q ∧ i ≤ j
  | .fnil, i, c, hc => by simp [resolveFields] at hc
  | .fcons name ig js t fs, i, c, hc => by
      rw [resolveFields] at hc
      rcases List.mem_append.mp hc with hb | hr
      · obtain ⟨p, hp⟩ := resolveField1_head name ig js t i c hb
        exact ⟨i, p, hp, Nat.le_refl i⟩
      · obtain ⟨j, q, hq, hj⟩ := resolveFields_head fs (i + 1) c hr
        exact ⟨j, q, hq, by omega⟩

mutual
theorem resolveField1_pairwise :
    ∀ name ig js t i, List.Pairwise colLt (resolveField1 name ig js t i)
  | _, true, _, _, _ => by rw [resolveField1]; exact List.Pairwise.nil
  | name, false, js, .scalar, i => by
      rw [resolveField1]; exact List.pairwise_singleton _ _
  | name, false, true, .strukt inner, i => by
      rw [resolveField1]; exact List.pairwise_singleton _ _
  | name, false, false, .strukt inner, i => by
      rw [resolveField1, List.pairwise_map]
      refine (resolveFields_pairwise inner 0).imp ?_
      intro a b hab
      simpa [colLt, fieldsLess_cons] using hab

theorem resolveFields_pairwise :
    ∀ fs i, List.Pairwise colLt (resolveFields fs i)
  | .fnil, _ => by rw [resolveFields]; exact List.Pairwise.nil
  | .fcons name ig js t fs, i => by
      rw [resolveFields]
      apply List.pairwise_append.mpr
      refine ⟨resolveField1_pairwise name ig js t i,
        resolveFields_pairwise fs (i + 1), ?_⟩
      intro a ha b hb
      obtain ⟨p, hp⟩ := resolveField1_head name ig js t i a ha
      obtain ⟨j, q, hq, hj⟩ := resolveFields_head fs (i + 1) b hb
      have hij : i < j := by omega
      simp [colLt, hp, hq, fieldsLess, hij]
end

theorem resolveColumns_pairwise (t : GoType) :
    List.Pairwise colLt (resolveColumns t) := by
  cases t with
  | scalar => exact List.Pairwise.nil
  | strukt fs => exact resolveFields_pairwise fs 0

theorem resolveColumns_nodup (t : GoType) :
    ((resolveColumns t).map Column.indices).Nodup := by
  rw [List.Nodup, List.pairwise_map]
  refine (resolveColumns_pairwise t).imp ?_
  intro a b hab he
  have h0 := fieldsLess_irrefl a.indices
  rw [colLt, he] at hab
  rw [he, hab] at h0
  exact Bool.noConfusion h0

/-- The resolver as `fields` (src/pgtools.go lines 128-167) computes it
when the Go map happens to be enumerated in declaration order; by
`sortCols_eq_of_perm` every other enumeration order sorts to the same
list. -/
def fieldsOf (t : GoType) : List String := fieldsGo (resolveColumns t)

theorem fieldsGo_perm_resolve {t : GoType} {cs : List Column}
    (hp : List.Perm cs (resolveColumns t)) : fieldsGo cs = fieldsOf t := by
  rw [fieldsOf, fieldsGo, fieldsGo,
    sortCols_eq_of_perm hp ((hp.map Column.indices).nodup_iff.mpr (resolveColumns_nodup t))]

theorem fieldsOf_declaration_order (t : GoType) :
    fieldsOf t = (resolveColumns t).map Column.name := by
  rw [fieldsOf, fieldsGo, sortCols_of_sorted (resolveColumns_pairwise t)]

/-- The local `field` struct of `Fields` (src/pgtools.go lines 102-105):
one cache entry, a type together with its resolved columns. -/
structure Entry where
  t : GoType
  v : List String
deriving DecidableEq

/-- The `lru` struct (src/pgtools.go lines 67-73): `m` is the Go map
from type to list element, modelled as an association list with
first-match lookup; `l` is the recency list, head = front = most
recently used, last = back = least recently used. -/
structure LRU where
  cap : Nat
  m : List (GoType × Entry)
  l : List Entry
deriving DecidableEq

/-- Go map read `m[rv]`. -/
def mapLookup (m : List (GoType × Entry)) (t : GoType) : Option Entry :=
  (m.find? (fun p => decide (p.1 = t))).map Prod.snd

/-- Go map deletion `delete(m, t)`. -/
def mapDelete (m : List (GoType × Entry)) (t : GoType) : List (GoType × Entry) :=
  m.filter (fun p => decide (p.1 ≠ t))

/-- Go map assignment `m[t] = e` (overwrite semantics). -/
def mapInsert (m : List (GoType × Entry)) (t : GoType) (e : Entry) :
    List (GoType × Entry) :=
  (t, e) :: mapDelete m t

/-- The body of `Fields` after the key type is computed (src/pgtools.go
lines 98-125), parametric in the resolver (the source's `fields`).
A hit moves the element to the front and returns the cached slice; a
miss at capacity removes the back element from list and map, then the
new entry is pushed to the front and recorded in the map.  `none` models
the `l.Remove(l.Back())` panic on an empty list, reachable only with
capacity zero (the element moved on a hit is the one the map references,
which under `consistent` is the unique list element with that type). -/
def cacheStep (resolve : GoType → List String) (s : LRU) (rv : GoType) :
    Option (List String × LRU) :=
  match mapLookup s.m rv with
  | some e => some (e.v, ⟨s.cap, s.m, e :: s.l.erase e⟩)
  | none =>
      let s1? : Option LRU :=
        if s.l.length = s.cap then
          match s.l.getLast? with
          | none => none
          | some oldest => some ⟨s.cap, mapDelete s.m oldest.t, s.l.dropLast⟩
        else some s
      s1?.map (fun s1 =>
        let columns := resolve rv
        (columns, ⟨s1.cap, mapInsert s1.m rv ⟨rv, columns⟩,
          ⟨rv, columns⟩ :: s1.l⟩))

/-- An `interface{}` argument of `Fields`/`Wildcard`: the nil interface,
a non-pointer value of some type, or a pointer whose element type is
given (the Bool records whether the pointer itself is nil; the code
never dereferences it, so it is never inspected). -/
inductive GoValue where
  | vnil : GoValue
  | val : GoType → GoValue
  | ptr : Bool → GoType → GoValue

/-- Lines 89-97 of src/pgtools.go: `nil` has no type (early return); a
pointer contributes its element type via `reflect.TypeOf(v).Elem()`
without dereferencing; any other value its own type. -/
def typeOfInput : GoValue → Option GoType
  | .vnil => none
  | .val t => some t
  | .ptr _ t => some t

/-- `Fields` (src/pgtools.go lines 87-126), parametric in the resolver:
nil input returns the empty slice without touching the cache. -/
def FieldsOp (resolve : GoType → List String) (s : LRU) (v : GoValue) :
    Option (List String × LRU) :=
  match typeOfInput v with
  | none => some ([], s)
  | some rv => cacheStep resolve s rv

/-- `Fields` with the real resolver `fields`. -/
def FieldsGo (s : LRU) (v : GoValue) : Option (List String × LRU) :=
  FieldsOp fieldsOf s v

/-- One element's output inside the `Wildcard` loop (src/pgtools.go
lines 52-61): the name wrapped in double quotes, followed — when the
name contains a dot — by an alias ` as "<name>"`. -/
def wildcardPiece (s : String) : String :=
  "\"" ++ s ++ "\"" ++ (if s.data.contains '.' then " as \"" ++ s ++ "\"" else "")

/-- The `for n, s := range elems` loop of `Wildcard` (src/pgtools.go
lines 48-62): a comma before every element except the one at index 0. -/
def wildcardLoop : Nat → List String → String
  | _, [] => ""
  | n, s :: rest =>
      (if n ≠ 0 then "," else "") ++ wildcardPiece s ++ wildcardLoop (n + 1) rest

/-- The string assembly of `Wildcard` (src/pgtools.go lines 38-63),
including the early return of `""` on an empty column list. -/
def wildcardBuild (elems : List String) : String :=
  if elems.length = 0 then "" else wildcardLoop 0 elems

/-- `Wildcard` (src/pgtools.go lines 35-64). -/
def WildcardOp (s : LRU) (v : GoValue) : Option (String × LRU) :=
  (FieldsGo s v).map (fun p => (wildcardBuild p.1, p.2))

/-- The package-level cache `wildcardsCache` at initialization
(src/pgtools.go lines 75-80): capacity 1000, empty map, empty list. -/
def wildcardsCache0 : LRU := ⟨1000, [], []⟩

/-- Mutual consistency of the LRU lookup map and recency list, and the
capacity bound (spec §4.2 Invariant): each list element is reachable
from the map under its type and maps back to itself, each map entry
points into the list under its key's type, keys are unique on both
sides, both sizes agree and are bounded by the capacity. -/
def consistent (s : LRU) : Prop :=
  (s.l.map Entry.t).Nodup ∧
  (s.m.map Prod.fst).Nodup ∧
  (∀ e ∈ s.l, mapLookup s.m e.t = some e) ∧
  (∀ p ∈ s.m, p.1 = p.2.t ∧ p.2 ∈ s.l) ∧
  s.m.length = s.l.length ∧
  s.l.length ≤ s.cap

instance (s : LRU) : Decidable (consistent s) := by
  unfold consistent
  infer_instance

/-- Every cached entry stores exactly the resolver's output for its
type — true of the real cache, whose entries are only ever created on
line 121 of src/pgtools.go from the result of `fields`. -/
def goodEntries (s : LRU) : Prop := ∀ e ∈ s.l, e.v = fieldsOf e.t

instance (s : LRU) : Decidable (goodEntries s) := by
  unfold goodEntries
  infer_instance

theorem mapLookup_nil (t : GoType) : mapLookup [] t = none := rfl

theorem mapLookup_cons (p : GoType × Entry) (m : List (GoType × Entry)) (t : GoType) :
    mapLookup (p :: m) t = if p.1 = t then some p.2 else mapLookup m t := by
  by_cases h : p.1 = t
  · simp [mapLookup, List.find?, h]
  · simp [mapLookup, List.find?, h]

theorem mapLookup_eq_none {m : List (GoType × Entry)} {t : GoType} :
    mapLookup m t = none ↔ ∀ p ∈ m, p.1 ≠ t := by
  simp [mapLookup, List.find?_eq_none]

theorem mapLookup_mem {m : List (GoType × Entry)} {t : GoType} {e : Entry}
    (h : mapLookup m t = some e) : (t, e) ∈ m := by
  simp only [mapLookup, Option.map_eq_some'] at h
  obtain ⟨p, hp, hpe⟩ := h
  have hmem := List.mem_of_find?_eq_some hp
  have hkey := List.find?_some hp
  simp at hkey
  have : p = (t, e) := by
    cases p
    simp_all
  rw [this] at hmem
  exact hmem

theorem mapDelete_sub {m : List (GoType × Entry)} {t : GoType} {p : GoType × Entry}
    (h : p ∈ mapDelete m t) : p ∈ m ∧ p.1 ≠ t := by
  have := List.of_mem_filter h
  simp at this
  exact ⟨List.mem_of_mem_filter h, this⟩

theorem mapDelete_of_none {m : List (GoType × Entry)} {t : GoType}
    (h : mapLookup m t = none) : mapDelete m t = m := by
  rw [mapLookup_eq_none] at h
  apply List.filter_eq_self.mpr
  intro p hp
  simpa using h p hp

theorem mapLookup_mapDelete_ne (m : List (GoType × Entry)) (t k : GoType)
    (hne : k ≠ t) : mapLookup (mapDelete m t) k = mapLookup m k := by
  induction m with
  | nil => rfl
  | cons p rest ih =>
      by_cases hp : p.1 = t
      · have h1 : mapDelete (p :: rest) t = mapDelete rest t := by
          simp [mapDelete, List.filter, hp]
        rw [h1, ih, mapLookup_cons, if_neg]
        rw [hp]
        exact fun he => hne he.symm
      · have h1 : mapDelete (p :: rest) t = p :: mapDelete rest t := by
          simp [mapDelete, List.filter, hp]
        rw [h1, mapLookup_cons, mapLookup_cons, ih]

theorem mapDelete_keys_nodup {m : List (GoType × Entry)} {t : GoType}
    (h : (m.map Prod.fst).Nodup) : ((mapDelete m t).map Prod.fst).Nodup :=
  h.sublist (List.Sublist.map Prod.fst (List.filter_sublist m))

theorem mapDelete_length {m : List (GoType × Entry)} {t : GoType} {e : Entry}
    (hnd : (m.map Prod.fst).Nodup) (h : mapLookup m t = some e) :
    (mapDelete m t).length + 1 = m.length := by
  induction m with
  | nil => simp [mapLookup] at h
  | cons p rest ih =>
      rw [mapLookup_cons] at h
      rw [List.map_cons, List.nodup_cons] at hnd
      by_cases hp : p.1 = t
      · have h1 : mapDelete (p :: rest) t = mapDelete rest t := by
          simp [mapDelete, List.filter, hp]
        have h2 : mapDelete rest t = rest := by
          apply mapDelete_of_none
          rw [mapLookup_eq_none]
          intro q hq hqt
          exact hnd.1 (by rw [hp, ← hqt]; exact List.mem_map_of_mem Prod.fst hq)
        simp [h1, h2]
      · rw [if_neg hp] at h
        have h1 : mapDelete (p :: rest) t = p :: mapDelete rest t := by
          simp [mapDelete, List.filter, hp]
        rw [h1]
        simp only [List.length_cons]
        rw [ih hnd.2 h]

theorem consistent_lookup_mem {s : LRU} (hc : consistent s) {t : GoType} {e : Entry}
    (h : mapLookup s.m t = some e) : e ∈ s.l ∧ e.t = t := by
  obtain ⟨-, -, -, h4, -, -⟩ := hc
  have hm := mapLookup_mem h
  have h5 := h4 (t, e) hm
  exact ⟨h5.2, h5.1.symm⟩

theorem consistent_lookup_none {s : LRU} (hc : consistent s) {t : GoType}
    (h : mapLookup s.m t = none) : ∀ e ∈ s.l, e.t ≠ t := by
  intro e he het
  obtain ⟨-, -, h3, -, -, -⟩ := hc
  have h5 := h3 e he
  rw [het, h] at h5
  exact Option.noConfusion h5

/-- A cache hit (src/pgtools.go lines 107-110) leaves a consistent
cache: the list after `MoveToFront` is a permutation of the old one. -/
theorem hit_consistent {s : LRU} (hc : consistent s) {t : GoType} {e : Entry}
    (h : mapLookup s.m t = some e) :
    consistent ⟨s.cap, s.m, e :: s.l.erase e⟩ ∧
      List.Perm (e :: s.l.erase e) s.l := by
  obtain ⟨he, -⟩ := consistent_lookup_mem hc h
  have hperm : List.Perm (e :: s.l.erase e) s.l := (List.perm_cons_erase he).symm
  obtain ⟨h1, h2, h3, h4, h5, h6⟩ := hc
  refine ⟨⟨?_, h2, ?_, ?_, ?_, ?_⟩, hperm⟩
  · exact ((hperm.map Entry.t).nodup_iff).mpr h1
  · intro x hx
    exact h3 x (hperm.mem_iff.mp hx)
  · intro p hp
    exact ⟨(h4 p hp).1, hperm.mem_iff.mpr (h4 p hp).2⟩
  · rw [hperm.length_eq]
    exact h5
  · rw [hperm.length_eq]
    exact h6

/-- Pushing a fresh entry (src/pgtools.go lines 120-124) onto a
consistent cache with spare room keeps it consistent. -/
theorem insert_consistent {cap : Nat} {m : List (GoType × Entry)} {l : List Entry}
    {rv : GoType} (cols : List String)
    (h1 : (l.map Entry.t).Nodup) (h2 : (m.map Prod.fst).Nodup)
    (h3 : ∀ e ∈ l, mapLookup m e.t = some e)
    (h4 : ∀ p ∈ m, p.1 = p.2.t ∧ p.2 ∈ l)
    (h5 : m.length = l.length) (h6 : l.length < cap)
    (hrv : mapLookup m rv = none) :
    consistent ⟨cap, mapInsert m rv ⟨rv, cols⟩, ⟨rv, cols⟩ :: l⟩ := by
  have hdel : mapDelete m rv = m := mapDelete_of_none hrv
  have hnotl : ∀ e ∈ l, e.t ≠ rv := by
    intro e he het
    have h7 := h3 e he
    rw [het, hrv] at h7
    exact Option.noConfusion h7
  have hnotm : ∀ p ∈ m, p.1 ≠ rv := mapLookup_eq_none.mp hrv
  refine ⟨?_, ?_, ?_, ?_, ?_, ?_⟩
  · rw [List.map_cons, List.nodup_cons]
    constructor
    · intro hmem
      obtain ⟨e, he, het⟩ := List.mem_map.mp hmem
      exact hnotl e he het
    · exact h1
  · show ((mapInsert m rv ⟨rv, cols⟩).map Prod.fst).Nodup
    rw [mapInsert, hdel, List.map_cons, List.nodup_cons]
    constructor
    · intro hmem
      obtain ⟨p, hp, hpt⟩ := List.mem_map.mp hmem
      exact hnotm p hp hpt
    · exact h2
  · intro e he
    rw [mapInsert, hdel, mapLookup_cons]
    rcases List.mem_cons.mp he with he1 | he2
    · rw [he1]
      simp
    · rw [if_neg]
      · exact h3 e he2
      · exact fun hx => hnotl e he2 hx.symm
  · intro p hp
    rw [mapInsert, hdel] at hp
    rcases List.mem_cons.mp hp with hp1 | hp2
    · rw [hp1]
      exact ⟨rfl, List.mem_cons_self _ _⟩
    · exact ⟨(h4 p hp2).1, List.mem_cons_of_mem _ (h4 p hp2).2⟩
  · show (mapInsert m rv ⟨rv, cols⟩).length = _
    rw [mapInsert, hdel]
    simp [h5]
  · simpa using h6

/-- Evicting the back element (src/pgtools.go lines 113-117) from a
consistent cache on a miss: the shrunken list and map stay mutually
consistent, both shrink by exactly one, and the missing key is still
absent. -/
theorem evict_facts {s : LRU} (hc : consistent s) {rv : GoType}
    (hrv : mapLookup s.m rv = none) {oldest : Entry}
    (holdest : s.l.getLast? = some oldest) :
    (s.l.dropLast.map Entry.t).Nodup ∧
    ((mapDelete s.m oldest.t).map Prod.fst).Nodup ∧
    (∀ e ∈ s.l.dropLast, mapLookup (mapDelete s.m oldest.t) e.t = some e) ∧
    (∀ p ∈ mapDelete s.m oldest.t, p.1 = p.2.t ∧ p.2 ∈ s.l.dropLast) ∧
    (mapDelete s.m oldest.t).length = s.l.dropLast.length ∧
    s.l.dropLast.length + 1 = s.l.length ∧
    mapLookup (mapDelete s.m oldest.t) rv = none := by
  have hsplit : s.l.dropLast ++ [oldest] = s.l :=
    List.dropLast_append_getLast? oldest (Option.mem_def.mpr holdest)
  have holdmem : oldest ∈ s.l := by
    rw [← hsplit]
    exact List.mem_append_right _ (List.mem_singleton_self _)
  obtain ⟨h1, h2, h3, h4, h5, h6⟩ := hc
  have hlook : mapLookup s.m oldest.t = some oldest := h3 oldest holdmem
  have hnd := h1
  rw [← hsplit, List.map_append] at hnd
  rcases List.nodup_append.mp hnd with ⟨hnd1, -, hdisj⟩
  have hne : ∀ e ∈ s.l.dropLast, e.t ≠ oldest.t := by
    intro e he het
    exact hdisj (List.mem_map_of_mem Entry.t he) (by simp [het])
  have hlen : s.l.dropLast.length + 1 = s.l.length := by
    have := congrArg List.length hsplit
    simpa using this
  have hrvne : rv ≠ oldest.t := by
    intro he
    rw [← he, hrv] at hlook
    exact Option.noConfusion hlook
  refine ⟨hnd1, mapDelete_keys_nodup h2, ?_, ?_, ?_, hlen, ?_⟩
  · intro e he
    rw [mapLookup_mapDelete_ne _ _ _ (hne e he)]
    exact h3 e (by rw [← hsplit]; exact List.mem_append_left _ he)
  · intro p hp
    obtain ⟨hpm, hpne⟩ := mapDelete_sub hp
    obtain ⟨hpt, hpl⟩ := h4 p hpm
    refine ⟨hpt, ?_⟩
    rw [← hsplit] at hpl
    rcases List.mem_append.mp hpl with hin | hone
    · exact hin
    · rw [List.mem_singleton.mp hone] at hpt
      exact absurd (hpt.trans rfl) hpne
  · have := mapDelete_length h2 hlook
    omega
  · rw [mapLookup_mapDelete_ne _ _ _ hrvne]
    exact hrv

/-- Any `Fields` call on a consistent cache with positive capacity
completes (no panic) and leaves the cache consistent with the same
capacity. -/
theorem cacheStep_consistent (resolve : GoType → List String) {s : LRU}
    (hc : consistent s) (hcap : 0 < s.cap) (rv : GoType) :
    ∃ out s', cacheStep resolve s rv = some (out, s') ∧ consistent s' ∧
      s'.cap = s.cap := by
  cases hl : mapLookup s.m rv with
  | some e =>
      refine ⟨e.v, _, ?_, (hit_consistent hc hl).1, rfl⟩
      simp only [cacheStep, hl]
  | none =>
      by_cases hfull : s.l.length = s.cap
      · cases hgl : s.l.getLast? with
        | none =>
            rw [List.getLast?_eq_none_iff] at hgl
            rw [hgl] at hfull
            simp at hfull
            omega
        | some oldest =>
            obtain ⟨e1, e2, e3, e4, e5, e6, e7⟩ := evict_facts hc hl hgl
            refine ⟨resolve rv,
              ⟨s.cap, mapInsert (mapDelete s.m oldest.t) rv ⟨rv, resolve rv⟩,
                ⟨rv, resolve rv⟩ :: s.l.dropLast⟩, ?_, ?_, rfl⟩
            · simp only [cacheStep, hl, if_pos hfull, hgl]
              rfl
            · exact insert_consistent (resolve rv) e1 e2 e3 e4 e5
                (by omega) e7
      · obtain ⟨h1, h2, h3, h4, h5, h6⟩ := hc
        refine ⟨resolve rv,
          ⟨s.cap, mapInsert s.m rv ⟨rv, resolve rv⟩, ⟨rv, resolve rv⟩ :: s.l⟩,
          ?_, ?_, rfl⟩
        · simp only [cacheStep, hl, if_neg hfull]
          rfl
        · exact insert_consistent (resolve rv) h1 h2 h3 h4 h5
            (by omega) hl

/-- `Fields` with the real resolver only ever stores and returns the
resolver's output: the hit branch returns a value written by a previous
miss, the miss branch returns `fields rv` itself. -/
theorem cacheStep_good {s : LRU} (hc : consistent s) (hg : goodEntries s)
    (rv : GoType) {out : List String} {s' : LRU}
    (h : cacheStep fieldsOf s rv = some (out, s')) :
    out = fieldsOf rv ∧ goodEntries s' := by
  cases hl : mapLookup s.m rv with
  | some e =>
      obtain ⟨hel, het⟩ := consistent_lookup_mem hc hl
      simp only [cacheStep, hl, Option.some.injEq, Prod.mk.injEq] at h
      obtain ⟨ho, hs⟩ := h
      constructor
      · rw [← ho, hg e hel, het]
      · intro x hx
        rw [← hs] at hx
        rcases List.mem_cons.mp hx with hx1 | hx2
        · rw [hx1]
          exact hg e hel
        · exact hg x ((List.erase_sublist e s.l).mem hx2)
  | none =>
      by_cases hfull : s.l.length = s.cap
      · cases hgl : s.l.getLast? with
        | none =>
            simp only [cacheStep, hl, if_pos hfull, hgl] at h
            simp at h
        | some oldest =>
            simp only [cacheStep, hl, if_pos hfull, hgl, Option.map_some',
              Option.some.injEq, Prod.mk.injEq] at h
            obtain ⟨ho, hs⟩ := h
            refine ⟨ho.symm, ?_⟩
            intro x hx
            rw [← hs] at hx
            rcases List.mem_cons.mp hx with hx1 | hx2
            · rw [hx1]
            · exact hg x ((List.dropLast_sublist s.l).mem hx2)
      · simp only [cacheStep, hl, if_neg hfull, Option.map_some',
          Option.some.injEq, Prod.mk.injEq] at h
        obtain ⟨ho, hs⟩ := h
        refine ⟨ho.symm, ?_⟩
        intro x hx
        rw [← hs] at hx
        rcases List.mem_cons.mp hx with hx1 | hx2
        · rw [hx1]
        · exact hg x hx2

/-- Modelled from the spec: each column name individually quoted with
the fixed identifier-quoting character, a dotted name additionally
aliased to its own full dotted name (§4.3). -/
def specPiece (s : String) : String :=
  "\"" ++ s ++ "\"" ++ (if s.data.contains '.' then " as \"" ++ s ++ "\"" else "")

/-- Modelled from the spec: a single comma-joined expression over the
rendered columns, in order (§4.3). -/
def specJoin : List String → String
  | [] => ""
  | [s] => specPiece s
  | s :: rest => specPiece s ++ "," ++ specJoin rest

theorem specPiece_eq (s : String) : specPiece s = wildcardPiece s := rfl

theorem wildcardLoop_index_irrelevant :
    ∀ (rest : List String) (n m : Nat),
      wildcardLoop (n + 1) rest = wildcardLoop (m + 1) rest
  | [], _, _ => rfl
  | s :: rest, n, m => by
    rw [wildcardLoop, wildcardLoop]
    rw [if_pos (Nat.succ_ne_zero n), if_pos (Nat.succ_ne_zero m)]
    rw [wildcardLoop_index_irrelevant rest (n + 1) (m + 1)]

theorem wildcardLoop_zero_eq_specJoin :
    ∀ (s : String) (rest : List String),
      wildcardLoop 0 (s :: rest) = specJoin (s :: rest)
  | s, [] => by
      rw [wildcardLoop, wildcardLoop, if_neg (by simp)]
      rw [specJoin, specPiece_eq, String.empty_append, String.append_empty]
  | s, r :: rs => by
      rw [wildcardLoop, if_neg (by simp), String.empty_append]
      rw [wildcardLoop, if_pos (Nat.succ_ne_zero 0)]
      have h1 : wildcardLoop (1 + 1) rs = wildcardLoop (0 + 1) rs :=
        wildcardLoop_index_irrelevant rs 1 0
      rw [h1]
      have h2 := wildcardLoop_zero_eq_specJoin r rs
      rw [wildcardLoop, if_neg (by simp), String.empty_append] at h2
      show wildcardPiece s ++ ("," ++ (wildcardPiece r ++ wildcardLoop (0 + 1) rs)) =
        specJoin (s :: r :: rs)
      rw [h2]
      show wildcardPiece s ++ ("," ++ specJoin (r :: rs)) =
        specPiece s ++ "," ++ specJoin (r :: rs)
      rw [specPiece_eq, String.append_assoc]

/-- The `Wildcard` string assembly refines the spec's rendering for
every nonempty column list. -/
theorem wildcardBuild_eq_specJoin {elems : List String} (h : elems ≠ []) :
    wildcardBuild elems = specJoin elems := by
  match elems with
  | [] => exact absurd rfl h
  | s :: rest =>
      rw [wildcardBuild, if_neg (by simp)]
      exact wildcardLoop_zero_eq_specJoin s rest

/-- The output of `Fields` for a value, as the spec's pipeline gives it:
no type (nil interface) yields the empty column list, otherwise the
resolver's columns for the key type. -/
def expectedOut (v : GoValue) : List String :=
  match typeOfInput v with
  | none => []
  | some rv => fieldsOf rv

/-- A `Fields` call that completed on a consistent, resolver-populated
cache returned exactly the resolver's columns for the value's type and
left the cache consistent and resolver-populated, with the capacity
unchanged. -/
theorem FieldsGo_some {s : LRU} {v : GoValue} {out : List String} {s' : LRU}
    (hc : consistent s) (hg : goodEntries s)
    (h : FieldsGo s v = some (out, s')) :
    out = expectedOut v ∧ consistent s' ∧ goodEntries s' ∧ s'.cap = s.cap := by
  cases hrv : typeOfInput v with
  | none =>
      simp only [FieldsGo, FieldsOp, hrv, Option.some.injEq, Prod.mk.injEq] at h
      obtain ⟨ho, hs⟩ := h
      rw [← ho, ← hs]
      exact ⟨by simp [expectedOut, hrv], hc, hg, rfl⟩
  | some rv =>
      have hstep : cacheStep fieldsOf s rv = some (out, s') := by
        simpa only [FieldsGo, FieldsOp, hrv] using h
      by_cases hcap : 0 < s.cap
      · obtain ⟨out2, s2, heq, hcons, hcap2⟩ :=
          cacheStep_consistent fieldsOf hc hcap rv
        rw [heq, Option.some.injEq, Prod.mk.injEq] at hstep
        obtain ⟨ho, hs⟩ := hstep
        obtain ⟨hout, hgood⟩ := cacheStep_good hc hg rv heq
        rw [← ho, ← hs]
        exact ⟨by simp [expectedOut, hrv, hout], hcons, hgood, hcap2⟩
      · exfalso
        obtain ⟨-, -, -, -, h5, h6⟩ := hc
        have hl0 : s.l = [] := List.length_eq_zero.mp (by omega)
        have hm0 : s.m = [] := List.length_eq_zero.mp (by omega)
        have hlook : mapLookup s.m rv = none := by rw [hm0]; rfl
        have hfull : s.l.length = s.cap := by omega
        have hgl : s.l.getLast? = none := by rw [hl0]; rfl
        simp only [cacheStep, hlook, if_pos hfull, hgl] at hstep
        simp at hstep

/-- C1: the claim as stated is false on the code: for the strict-prefix
pair `[0]` and `[0, 1]`, the Go comparator deems the longer path less
than its prefix and not vice versa, so the sorted column list puts the
longer path first, not the shorter one. -/
theorem C1_prefix_counterexample :
    fieldsLess [0] [0, 1] = false ∧ fieldsLess [0, 1] [0] = true ∧
      fieldsGo [⟨[0], "parent"⟩, ⟨[0, 1], "child"⟩] = ["child", "parent"] := by
  decide

/-- C1 (amended): the resolver sorts discovered columns by their
FieldPath over the index sequences: first elements are compared, ties
descend to the next index — but for every pair of paths where one is a
strict prefix of the other, the LONGER path sorts before the shorter
(prefix) one; and the sort leaves the columns ordered by that comparator
as a permutation of the input. -/
theorem C1_fieldPath_order :
    (∀ (x : Nat) (a b : List Nat),
      fieldsLess (x :: a) (x :: b) = fieldsLess a b) ∧
    (∀ (x y : Nat) (a b : List Nat), x < y →
      fieldsLess (x :: a) (y :: b) = true ∧
      fieldsLess (y :: b) (x :: a) = false) ∧
    (∀ b c : List Nat,
      fieldsLess (b ++ c) b = !c.isEmpty ∧ fieldsLess b (b ++ c) = false) ∧
    (∀ cs : List Column,
      List.Sorted colLe (sortCols cs) ∧ List.Perm (sortCols cs) cs) := by
  refine ⟨fieldsLess_cons, ?_, ?_, fun cs => ⟨sortCols_sorted cs, sortCols_perm cs⟩⟩
  · intro x y a b hxy
    exact ⟨by simp [fieldsLess, hxy], by simp [fieldsLess, hxy, Nat.lt_asymm hxy]⟩
  · intro b c
    induction b with
    | nil => cases c <;> simp [fieldsLess]
    | cons x bs ih =>
        refine ⟨?_, ?_⟩
        · rw [List.cons_append, fieldsLess_cons]
          exact ih.1
        · rw [List.cons_append, fieldsLess_cons]
          exact ih.2

/-- Witness for C1 at concrete paths: ties descend, smaller head first,
and the strict-prefix pair `[4]`, `[4, 6]` sorts longer-first. -/
theorem C1_fieldPath_order_witness :
    fieldsLess [5, 7] [5, 9] = fieldsLess [7] [9] ∧
    (fieldsLess [1, 3] [2] = true ∧ fieldsLess [2] [1, 3] = false) ∧
    (fieldsLess ([4] ++ [6]) [4] = !(List.isEmpty [6]) ∧
      fieldsLess [4] ([4] ++ [6]) = false) :=
  ⟨C1_fieldPath_order.1 5 [7] [9],
    C1_fieldPath_order.2.1 1 2 [3] [] (by decide),
    C1_fieldPath_order.2.2.1 [4] [6]⟩

/-- Example type for C3 and §8 of the spec: fields A, B, C declared in
that order, C itself a composite with sub-fields D, E. -/
def tABC : GoType :=
  .strukt (.fcons "A" false false .scalar
    (.fcons "B" false false .scalar
      (.fcons "C" false false
        (.strukt (.fcons "D" false false .scalar
          (.fcons "E" false false .scalar .fnil)))
        .fnil)))

/-- Example type whose declaration order differs from alphabetical
order: field "b" declared before field "a". -/
def tBA : GoType :=
  .strukt (.fcons "b" false false .scalar
    (.fcons "a" false false .scalar .fnil))

/-- Two-field example type with fields "a" then "b". -/
def tAB : GoType :=
  .strukt (.fcons "a" false false .scalar
    (.fcons "b" false false .scalar .fnil))

/-- C3: resolution preserves field declaration order, including through
nested composites: the sorted output lists the resolver's columns in
declaration order for every type and for every enumeration order of the
column map; the A/B/C(D,E) example yields exactly
["A", "B", "C.D", "C.E"]; and the b-before-a example shows the order is
declaration order, not alphabetical. -/
theorem C3_order_fidelity :
    (∀ t : GoType, fieldsOf t = (resolveColumns t).map Column.name) ∧
    (∀ (t : GoType) (cs : List Column), List.Perm cs (resolveColumns t) →
      fieldsGo cs = (resolveColumns t).map Column.name) ∧
    fieldsOf tABC = ["A", "B", "C.D", "C.E"] ∧
    fieldsOf tBA = ["b", "a"] := by
  refine ⟨fieldsOf_declaration_order, ?_, by decide, by decide⟩
  intro t cs hp
  rw [fieldsGo_perm_resolve hp]
  exact fieldsOf_declaration_order t

/-- Witness for C3: a column list given in an order different from
declaration order (as a Go map enumeration might) still sorts back to
declaration order. -/
theorem C3_order_fidelity_witness :
    fieldsGo [⟨[1], "b"⟩, ⟨[0], "a"⟩] = (resolveColumns tAB).map Column.name ∧
      (resolveColumns tAB).map Column.name = ["a", "b"] :=
  ⟨C3_order_fidelity.2.1 tAB [⟨[1], "b"⟩, ⟨[0], "a"⟩] (by decide), by decide⟩

/-- C2: with the cache at capacity, a miss on a new type removes exactly
the back (least-recently-used) element from both the list and the map
and pushes the new entry to the front; a hit promotes the entry to the
front and returns its cached columns without recomputation (the result
and state do not depend on the resolver at all); and an entry
re-accessed before the next insertion is not the one that insertion
evicts. -/
theorem C2_lru_behaviour (resolve resolve' : GoType → List String)
    (s : LRU) (t t2 : GoType) (hc : consistent s) :
    (∀ e : Entry, mapLookup s.m t = some e →
      cacheStep resolve s t = some (e.v, ⟨s.cap, s.m, e :: s.l.erase e⟩) ∧
      cacheStep resolve s t = cacheStep resolve' s t) ∧
    (mapLookup s.m t = none → s.l.length = s.cap → 0 < s.cap →
      ∃ oldest : Entry, s.l.getLast? = some oldest ∧
        cacheStep resolve s t = some (resolve t,
          ⟨s.cap, mapInsert (mapDelete s.m oldest.t) t ⟨t, resolve t⟩,
            ⟨t, resolve t⟩ :: s.l.dropLast⟩)) ∧
    (∀ (e : Entry) (out1 : List String) (s1 : LRU) (out2 : List String)
      (s2 : LRU),
      mapLookup s.m t = some e → mapLookup s.m t2 = none → 2 ≤ s.l.length →
      cacheStep resolve s t = some (out1, s1) →
      cacheStep resolve s1 t2 = some (out2, s2) →
      mapLookup s2.m t = some e) := by
  refine ⟨?_, ?_, ?_⟩
  · intro e he
    constructor
    · simp only [cacheStep, he]
    · simp only [cacheStep, he]
  · intro hn hfull hcap
    cases hgl : s.l.getLast? with
    | none =>
        exfalso
        rw [List.getLast?_eq_none_iff] at hgl
        rw [hgl] at hfull
        simp at hfull
        omega
    | some oldest =>
        refine ⟨oldest, rfl, ?_⟩
        simp only [cacheStep, hn, if_pos hfull, hgl]
        rfl
  · intro e out1 s1 out2 s2 he hn2 hlen h1 h2
    have hstep : cacheStep resolve s t =
        some (e.v, ⟨s.cap, s.m, e :: s.l.erase e⟩) := by
      simp only [cacheStep, he]
    rw [hstep, Option.some.injEq, Prod.mk.injEq] at h1
    obtain ⟨-, hs1⟩ := h1
    obtain ⟨hel, het⟩ := consistent_lookup_mem hc he
    have htne : t ≠ t2 := by
      intro hx
      rw [hx, hn2] at he
      exact Option.noConfusion he
    obtain ⟨hnd1, hnd2, h3, h4, h5, h6⟩ := hc
    have hkey : ∀ x ∈ s.l.erase e, x.t ≠ t := by
      intro x hx hxt
      have hxl : x ∈ s.l := (List.erase_sublist e s.l).mem hx
      have hlookx := h3 x hxl
      rw [hxt, he] at hlookx
      have hxe : x = e := by
        injection hlookx with hv
        exact hv.symm
      have hnodup : s.l.Nodup := List.Nodup.of_map Entry.t hnd1
      exact ((List.Nodup.mem_erase_iff hnodup).mp hx).1 hxe
    subst hs1
    by_cases hfull2 : (e :: s.l.erase e).length = s.cap
    · have hrest : s.l.erase e ≠ [] := by
        have hle := List.length_erase_of_mem hel
        intro hx
        rw [hx] at hle
        simp at hle
        omega
      cases hgl2 : (s.l.erase e).getLast? with
      | none =>
          rw [List.getLast?_eq_none_iff] at hgl2
          exact absurd hgl2 hrest
      | some oldest =>
          obtain ⟨r, rest', hrr⟩ := List.exists_cons_of_ne_nil hrest
          have hglcons : (e :: s.l.erase e).getLast? = some oldest := by
            rw [hrr] at hgl2 ⊢
            rw [List.getLast?_cons_cons]
            exact hgl2
          have holdmem : oldest ∈ s.l.erase e := by
            have hsplit :=
              List.dropLast_append_getLast? oldest (Option.mem_def.mpr hgl2)
            rw [← hsplit]
            exact List.mem_append_right _ (List.mem_singleton_self _)
          have holdt : oldest.t ≠ t := hkey oldest holdmem
          simp only [cacheStep, hn2, if_pos hfull2, hglcons, Option.map_some',
            Option.some.injEq, Prod.mk.injEq] at h2
          obtain ⟨-, hs2⟩ := h2
          rw [← hs2]
          show mapLookup (mapInsert (mapDelete s.m oldest.t) t2
            ⟨t2, resolve t2⟩) t = some e
          rw [mapInsert, mapLookup_cons, if_neg (fun hx => htne hx.symm),
            mapLookup_mapDelete_ne _ _ _ htne,
            mapLookup_mapDelete_ne _ _ _ (Ne.symm holdt)]
          exact he
    · simp only [cacheStep, hn2, if_neg hfull2, Option.map_some',
        Option.some.injEq, Prod.mk.injEq] at h2
      obtain ⟨-, hs2⟩ := h2
      rw [← hs2]
      show mapLookup (mapInsert s.m t2 ⟨t2, resolve t2⟩) t = some e
      rw [mapInsert, mapLookup_cons, if_neg (fun hx => htne hx.symm),
        mapLookup_mapDelete_ne _ _ _ htne]
      exact he

/-- A one-entry cache at capacity 1 holding the columns of `tBA`. -/
def eC2 : Entry := ⟨tBA, ["b", "a"]⟩

/-- A concrete full cache for the C2 witness. -/
def sC2 : LRU := ⟨1, [(tBA, eC2)], [eC2]⟩

/-- Witness for C2 on a concrete full cache: the hit on `tBA` promotes
and returns the cached columns; the miss on `tAB` evicts the single
(back) entry from both structures and inserts the new one in front. -/
theorem C2_lru_behaviour_witness :
    consistent sC2 ∧
    cacheStep fieldsOf sC2 tBA =
      some (eC2.v, ⟨sC2.cap, sC2.m, eC2 :: sC2.l.erase eC2⟩) ∧
    (∃ oldest : Entry, sC2.l.getLast? = some oldest ∧
      cacheStep fieldsOf sC2 tAB = some (fieldsOf tAB,
        ⟨sC2.cap, mapInsert (mapDelete sC2.m oldest.t) tAB ⟨tAB, fieldsOf tAB⟩,
          ⟨tAB, fieldsOf tAB⟩ :: sC2.l.dropLast⟩)) :=
  ⟨by decide,
    ((C2_lru_behaviour fieldsOf fieldsOf sC2 tBA tAB (by decide)).1 eC2
      (by decide)).1,
    (C2_lru_behaviour fieldsOf fieldsOf sC2 tAB tBA (by decide)).2.1
      (by decide) (by decide) (by decide)⟩

/-- C4: every `Fields` call on a consistent cache of capacity 1000
completes, and afterwards the lookup map and recency list are still
mutually consistent and both hold at most 1000 entries. -/
theorem C4_cache_invariant (s : LRU) (v : GoValue)
    (hc : consistent s) (hcap : s.cap = 1000) :
    ∃ out s', FieldsGo s v = some (out, s') ∧ consistent s' ∧
      s'.l.length ≤ 1000 ∧ s'.m.length ≤ 1000 := by
  cases hrv : typeOfInput v with
  | none =>
      have h5 := hc.2.2.2.2.1
      have h6 := hc.2.2.2.2.2
      refine ⟨[], s, ?_, hc, by omega, by omega⟩
      simp [FieldsGo, FieldsOp, hrv]
  | some rv =>
      obtain ⟨out, s', heq, hcons, hcapeq⟩ :=
        cacheStep_consistent fieldsOf hc (by omega) rv
      have g5 := hcons.2.2.2.2.1
      have g6 := hcons.2.2.2.2.2
      refine ⟨out, s', ?_, hcons, by omega, by omega⟩
      simp [FieldsGo, FieldsOp, hrv, heq]

/-- Witness for C4: the freshly initialized 1000-capacity cache is
consistent, and a concrete `Fields` call preserves the invariant. -/
theorem C4_cache_invariant_witness :
    consistent wildcardsCache0 ∧
      ∃ out s', FieldsGo wildcardsCache0 (.val tAB) = some (out, s') ∧
        consistent s' ∧ s'.l.length ≤ 1000 ∧ s'.m.length ≤ 1000 :=
  ⟨by decide, C4_cache_invariant wildcardsCache0 (.val tAB) (by decide) rfl⟩

/-- C5: a nil interface, a non-composite value, and a pointer to a
non-composite all yield the empty column list from `Fields` and the
empty string from `Wildcard`, with no error and no panic. -/
theorem C5_unsupported_empty (s : LRU) (b : Bool)
    (hc : consistent s) (hg : goodEntries s) (hcap : 0 < s.cap) :
    (FieldsGo s .vnil = some ([], s) ∧ WildcardOp s .vnil = some ("", s)) ∧
    (∃ s1, FieldsGo s (.val .scalar) = some ([], s1) ∧
      WildcardOp s (.val .scalar) = some ("", s1)) ∧
    (∃ s2, FieldsGo s (.ptr b .scalar) = some ([], s2) ∧
      WildcardOp s (.ptr b .scalar) = some ("", s2)) := by
  have hnil : FieldsGo s .vnil = some ([], s) := rfl
  refine ⟨⟨hnil, by rw [WildcardOp, hnil]; rfl⟩, ?_, ?_⟩
  · obtain ⟨out, s1, heq, -, -⟩ :=
      cacheStep_consistent fieldsOf hc hcap GoType.scalar
    have h1 : FieldsGo s (.val .scalar) = some (out, s1) := heq
    have hout : out = [] := (cacheStep_good hc hg GoType.scalar heq).1
    rw [hout] at h1
    exact ⟨s1, h1, by rw [WildcardOp, h1]; rfl⟩
  · obtain ⟨out, s2, heq, -, -⟩ :=
      cacheStep_consistent fieldsOf hc hcap GoType.scalar
    have h2 : FieldsGo s (.ptr b .scalar) = some (out, s2) := heq
    have hout : out = [] := (cacheStep_good hc hg GoType.scalar heq).1
    rw [hout] at h2
    exact ⟨s2, h2, by rw [WildcardOp, h2]; rfl⟩

/-- Witness for C5 on the initial cache. -/
theorem C5_unsupported_empty_witness :
    (FieldsGo wildcardsCache0 .vnil = some ([], wildcardsCache0) ∧
      WildcardOp wildcardsCache0 .vnil = some ("", wildcardsCache0)) ∧
    (∃ s1, FieldsGo wildcardsCache0 (.val .scalar) = some ([], s1) ∧
      WildcardOp wildcardsCache0 (.val .scalar) = some ("", s1)) ∧
    (∃ s2, FieldsGo wildcardsCache0 (.ptr true .scalar) = some ([], s2) ∧
      WildcardOp wildcardsCache0 (.ptr true .scalar) = some ("", s2)) :=
  C5_unsupported_empty wildcardsCache0 true (by decide) (by decide) (by decide)

/-- Example type for the §8 concrete scenario: a flat column and a
nested composite producing a dotted column. -/
def tC6 : GoType :=
  .strukt (.fcons "id" false false .scalar
    (.fcons "address" false false
      (.strukt (.fcons "city" false false .scalar .fnil))
      .fnil))

/-- The cache after resolving `tC6` from the initial state. -/
def stateC6 : LRU :=
  ⟨1000, [(tC6, ⟨tC6, ["id", "address.city"]⟩)],
    [⟨tC6, ["id", "address.city"]⟩]⟩

/-- C6: for every nonempty resolved column list, `Wildcard` returns the
comma-joined rendering in resolver order, each name double-quoted, and
each dotted name followed by an alias (the spec-modelled `specJoin`). -/
theorem C6_wildcard_format (s : LRU) (v : GoValue) (cols : List String)
    (s' : LRU) (h : FieldsGo s v = some (cols, s')) (hne : cols ≠ []) :
    WildcardOp s v = some (specJoin cols, s') := by
  rw [WildcardOp, h, Option.map_some']
  rw [wildcardBuild_eq_specJoin hne]

/-- Witness for C6: the flat column gets no alias, the dotted column is
aliased to itself. -/
theorem C6_wildcard_format_witness :
    WildcardOp wildcardsCache0 (.val tC6) =
      some ("\"id\",\"address.city\" as \"address.city\"", stateC6) := by
  rw [C6_wildcard_format wildcardsCache0 (.val tC6) ["id", "address.city"]
    stateC6 (by decide) (by decide)]
  decide

/-- The cache after resolving `tAB` from the initial state; a second
lookup of `tAB` is a hit and leaves this state unchanged. -/
def stateAB : LRU :=
  ⟨1000, [(tAB, ⟨tAB, ["a", "b"]⟩)], [⟨tAB, ["a", "b"]⟩]⟩

/-- C7: resolution is deterministic: the sorted output is the same for
every enumeration order of the discovered columns, and two consecutive
`Fields` calls on the same value — a cold one and a cache-hit one —
return the same column list. -/
theorem C7_determinism :
    (∀ (t : GoType) (cs cs' : List Column),
      List.Perm cs (resolveColumns t) → List.Perm cs' (resolveColumns t) →
      fieldsGo cs = fieldsGo cs') ∧
    (∀ (s : LRU) (v : GoValue) (out1 : List String) (s1 : LRU)
      (out2 : List String) (s2 : LRU), consistent s → goodEntries s →
      FieldsGo s v = some (out1, s1) → FieldsGo s1 v = some (out2, s2) →
      out1 = out2) := by
  constructor
  · intro t cs cs' h1 h2
    rw [fieldsGo_perm_resolve h1, fieldsGo_perm_resolve h2]
  · intro s v out1 s1 out2 s2 hc hg h1 h2
    obtain ⟨ho1, hc1, hg1, -⟩ := FieldsGo_some hc hg h1
    obtain ⟨ho2, -, -, -⟩ := FieldsGo_some hc1 hg1 h2
    rw [ho1, ho2]

/-- Witness for C7: two enumeration orders of the same column set sort
identically, and a concrete cold call followed by a cache-hit call
returns the same list. -/
theorem C7_determinism_witness :
    fieldsGo [⟨[1], "b"⟩, ⟨[0], "a"⟩] = fieldsGo [⟨[0], "a"⟩, ⟨[1], "b"⟩] ∧
      (["a", "b"] : List String) = ["a", "b"] :=
  ⟨C7_determinism.1 tAB [⟨[1], "b"⟩, ⟨[0], "a"⟩] [⟨[0], "a"⟩, ⟨[1], "b"⟩]
      (by decide) (by decide),
    C7_determinism.2 wildcardsCache0 (.val tAB) ["a", "b"] stateAB
      ["a", "b"] stateAB (by decide) (by decide) (by decide) (by decide)⟩

/-- C8: on a consistent cache with positive capacity (the real cache has
capacity 1000) `Wildcard` terminates with a string for every input — no
panic, no error — including a zero-length column name, which yields the
malformed-but-returned string made of two quotes. -/
theorem C8_no_panic (s : LRU) (v : GoValue)
    (hc : consistent s) (hcap : 0 < s.cap) :
    (∃ out s', WildcardOp s v = some (out, s')) ∧
      wildcardBuild [""] = "\"\"" := by
  refine ⟨?_, by decide⟩
  cases hrv : typeOfInput v with
  | none =>
      refine ⟨"", s, ?_⟩
      have hnil : FieldsGo s v = some ([], s) := by
        simp [FieldsGo, FieldsOp, hrv]
      rw [WildcardOp, hnil]
      rfl
  | some rv =>
      obtain ⟨out, s', heq, -, -⟩ := cacheStep_consistent fieldsOf hc hcap rv
      refine ⟨wildcardBuild out, s', ?_⟩
      have h1 : FieldsGo s v = some (out, s') := by
        simp [FieldsGo, FieldsOp, hrv, heq]
      rw [WildcardOp, h1, Option.map_some']

/-- Witness for C8 on the initial cache. -/
theorem C8_no_panic_witness :
    (∃ out s', WildcardOp wildcardsCache0 (.val .scalar) = some (out, s')) ∧
      wildcardBuild [""] = "\"\"" :=
  C8_no_panic wildcardsCache0 (.val .scalar) (by decide) (by decide)

/-- Two-field example type for C9. -/
def tC9 : GoType :=
  .strukt (.fcons "x" false false .scalar
    (.fcons "y" false false .scalar .fnil))

/-- The cache after resolving `tC9` from the initial state. -/
def stateC9 : LRU :=
  ⟨1000, [(tC9, ⟨tC9, ["x", "y"]⟩)], [⟨tC9, ["x", "y"]⟩]⟩

/-- C9: a typed nil pointer is indistinguishable from a non-nil pointer
of the same type — `Fields` reads the element type without
dereferencing — and a nil pointer-to-struct yields the full resolved
column list, not the empty one. -/
theorem C9_typed_nil_pointer :
    (∀ (s : LRU) (b b' : Bool) (t : GoType),
      FieldsGo s (.ptr b t) = FieldsGo s (.ptr b' t)) ∧
    FieldsGo wildcardsCache0 (.ptr true tC9) = some (["x", "y"], stateC9) ∧
    (["x", "y"] : List String) ≠ [] := by
  refine ⟨fun s b b' t => rfl, by decide, by decide⟩
